import Mathlib

/-!
# Verification of the UnrealDI registration storage

A shallow embedding of `Source/UnrealDI/Private/RegistrationStorage.cpp`:
the per-scope binding table (`Registrations`), the scope chain
(`ParentStorage`), lifetime handlers, the instance-factory chain
(`InitServices` / `FindInstanceFactory`), single resolve
(`Resolve` / `GetResolver` / `ResolveImpl`), collect-all
(`ResolveAll` / `AppendObjectsCollection`), injection
(`Inject` / `CanInject`) and `IsRegistered`.

Type identifiers (`UClass*`) are modelled as `Nat`.  Lifetime handlers are
shared references in the source (`TSharedRef<FLifetimeHandler>`), so they
live in an explicit store (`St.handlers`) and a binding carries an index
into it.  Instance creation and recursive dependency resolution thread the
storage, the store and a fresh-id counter explicitly; recursion is bounded
by fuel (the source has no cycle detection and can recurse without bound).
Operation ordering inside `ResolveImpl` is made observable through an event
trace.
-/

namespace UnrealDI

/-- An object instance (`UObject*`): identity, concrete class, the id of the
factory that created it, and the classes of the dependencies delivered to it
by blueprint injection. -/
structure Obj where
  oid : Nat
  cls : Nat
  madeBy : Nat
  depCls : List Nat
deriving DecidableEq, Repr

/-- Lifetime handler state (`FLifetimeHandler`).  Modelled from the spec:
`Lifetimes.h` is not under the sources; the spec (§3) gives the two stock
policies — Transient (`get` always empty, `set` a no-op) and Cached
(`get` returns the stored instance if any, `set` stores it). -/
inductive LT where
  | transient : LT
  | cached (val : Option Obj) : LT
deriving DecidableEq, Repr

/-- `FLifetimeHandler::Get`. -/
def LT.get : LT → Option Obj
  | .transient => none
  | .cached v => v

/-- `FLifetimeHandler::Set`. -/
def LT.set : LT → Obj → LT
  | .transient, _ => .transient
  | .cached _, o => .cached (some o)

/-- One registered binding (`FResolver`): the effective class
(`TSoftClassPtr`, modelled as already loaded) and a reference into the
lifetime-handler store. -/
structure Resolver where
  effectiveClass : Nat
  lifetimeRef : Nat
deriving DecidableEq, Repr

/-- An instance factory (`IInstanceFactory`).  `IsClassSupported` is modelled
by a finite support list plus a supports-everything flag. -/
structure Factory where
  fid : Nat
  supportsAll : Bool
  supported : List Nat
deriving DecidableEq, Repr

/-- `IInstanceFactory::IsClassSupported`. -/
def Factory.isClassSupported (f : Factory) (ty : Nat) : Bool :=
  f.supportsAll || f.supported.contains ty

/-- Modelled from the spec: the universal default factory
(`UDefaultInstanceFactory`, not under the sources) "supports every
instantiable type" (§3). -/
def defaultFactory : Factory := ⟨0, true, []⟩

/-- The binding table `TMap<UClass*, FResolversArray>`, as an association
list with distinct keys; per key the resolvers are in registration order
(oldest first), exactly as `FindOrAdd` + `Emplace` builds them. -/
abbrev Regs := List (Nat × List Resolver)

/-- `TMap::Find`. -/
def lookupRegs : Regs → Nat → Option (List Resolver)
  | [], _ => none
  | (k, rs) :: rest, ty => if k = ty then some rs else lookupRegs rest ty

/-- `FRegistrationStorage`: local `Registrations`, locally registered user
instance factories (in registration order, the instances the factory
bindings resolve to), and `ParentStorage` (none for the root). -/
inductive Storage where
  | root (regs : Regs) (facs : List Factory) : Storage
  | child (regs : Regs) (facs : List Factory) (parent : Storage) : Storage
deriving DecidableEq, Repr

/-- The local `Registrations` map of a storage. -/
def Storage.localRegs : Storage → Regs
  | .root regs _ => regs
  | .child regs _ _ => regs

/-- The locally registered user factories of a storage. -/
def Storage.localFacs : Storage → List Factory
  | .root _ f => f
  | .child _ f _ => f

/-- Whether the storage is the root (`ParentStorage == nullptr`). -/
def Storage.isRoot : Storage → Bool
  | .root _ _ => true
  | .child _ _ _ => false

/-- What `ResolveAll(UInstanceFactory::StaticClass())` yields over the whole
chain: ancestor-first concatenation of locally registered factories. -/
def chainFacs : Storage → List Factory
  | .root _ f => f
  | .child _ f p => chainFacs p ++ f

/-- `InitServices` (lines 32-48): the root adds the default factory; a
storage whose local `Registrations` contain factory bindings appends the
chain-wide factory instances; the array is then reversed so it is ordered
most-recently-added first. -/
def instanceFactories (s : Storage) : List Factory :=
  ((if s.isRoot then [defaultFactory] else []) ++
    (if s.localFacs.isEmpty then [] else chainFacs s)).reverse

/-- `FindInstanceFactory` (lines 213-225): scan the local `InstanceFactories`
array in order, else delegate to the parent.  The root with no match would
dereference a null parent in the source; that dead branch is `none` here. -/
def findInstanceFactory : Storage → Nat → Option Factory
  | .root regs f, ty =>
      (instanceFactories (.root regs f)).find? (fun fac => fac.isClassSupported ty)
  | .child regs f p, ty =>
      match (instanceFactories (.child regs f p)).find? (fun fac => fac.isClassSupported ty) with
      | some fac => some fac
      | none => findInstanceFactory p ty

/-- Follows the spec's words (§3, §4.3): consult locally registered
factories most-recently-registered first, innermost scope first, and the
universal default factory last (root only). -/
def specFactoryOrder : Storage → List Factory
  | .root _ f => f.reverse ++ [defaultFactory]
  | .child _ f p => f.reverse ++ specFactoryOrder p

/-- The factory the spec's search order selects. -/
def specFindFactory (s : Storage) (ty : Nat) : Option Factory :=
  (specFactoryOrder s).find? (fun fac => fac.isClassSupported ty)

/-- `IsRegistered` (lines 143-155). -/
def isRegistered : Storage → Nat → Bool
  | .root regs _, ty => (lookupRegs regs ty).isSome
  | .child regs _ p, ty => (lookupRegs regs ty).isSome || isRegistered p ty

/-- The count loop of `ResolveAll` (lines 64-69): total number of bindings
for `ty` across the whole ancestor chain. -/
def totalResolvers : Storage → Nat → Nat
  | .root regs _, ty => ((lookupRegs regs ty).getD []).length
  | .child regs _ p, ty => ((lookupRegs regs ty).getD []).length + totalResolvers p ty

/-- All bindings for `ty` in the chain, outermost ancestor first, each
scope's bindings in registration order. -/
def chainResolvers : Storage → Nat → List Resolver
  | .root regs _, ty => (lookupRegs regs ty).getD []
  | .child regs _ p, ty => chainResolvers p ty ++ (lookupRegs regs ty).getD []

/-- Every binding registered anywhere in the chain (order immaterial;
used only for invariants). -/
def allResolvers : Storage → List Resolver
  | .root regs _ => (regs.map Prod.snd).flatten
  | .child regs _ p => allResolvers p ++ (regs.map Prod.snd).flatten

/-- Innermost-first list of the local binding tables of the chain. -/
def scopesRegs : Storage → List Regs
  | .root regs _ => [regs]
  | .child regs _ p => regs :: scopesRegs p

/-- The root's local binding table. -/
def rootRegs : Storage → Regs
  | .root regs _ => regs
  | .child _ _ p => rootRegs p

/-- The storages of the chain, innermost first. -/
def chainScopes : Storage → List Storage
  | .root regs f => [.root regs f]
  | .child regs f p => .child regs f p :: chainScopes p

/-- The mutable non-table state: fresh object-id counter and the
lifetime-handler store. -/
structure St where
  counter : Nat
  handlers : List LT
deriving DecidableEq, Repr

/-- Read a handler from the store (`TSharedRef` dereference). -/
def hGet (st : St) (k : Nat) : LT := st.handlers.getD k .transient

/-- `Resolver.LifetimeHandler->Set(Result)`: update the handler in place. -/
def hSet (st : St) (k : Nat) (o : Obj) : St :=
  { st with handlers := st.handlers.set k ((st.handlers.getD k .transient).set o) }

/-- Allocate a fresh Transient handler (`MakeShared<FLifetimeHandler_Transient>`). -/
def St.pushTransient (st : St) : St :=
  { st with handlers := st.handlers ++ [.transient] }

/-- The external type-metadata collaborator (`FDependenciesRegistry` and
`UClass` queries, outside the sources): whether a class is interface-only
(`IsChildOf<UInterface>`), whether it has a native `InitDependencies`, and
the ordered object/interface parameter classes of its blueprint
`InitDependencies`, if it has one. -/
structure TypeMeta where
  isInterface : Nat → Bool
  hasNativeInit : Nat → Bool
  blueprintParams : Nat → Option (List Nat)

/-- Fatal outcomes (`checkf` aborts) and fuel exhaustion. -/
inductive Err where
  | outOfFuel : Err
  | notRegistered (ty : Nat) : Err
  | notRegisteredAll (ty : Nat) : Err
  | emptyEntry : Err
  | noFactory : Err
deriving DecidableEq, Repr

/-- Observable operations, in execution order. -/
inductive Ev where
  | created (oid cls fid : Nat) : Ev
  | nativeInit (oid : Nat) : Ev
  | blueprintInit (oid : Nat) : Ev
  | finalized (oid : Nat) : Ev
  | stored (oid : Nat) : Ev
deriving DecidableEq, Repr

/-- `GetResolver` (lines 185-211): last local binding wins; otherwise
delegate to the parent; at the root, an interface-only type is a fatal
configuration error and any other type is auto-registered as a Transient
binding against itself.  Returns the chosen binding together with the
possibly mutated storage and handler store. -/
def getResolver (m : TypeMeta) : Storage → St → Nat → Except Err (Resolver × Storage × St)
  | .root regs f, st, ty =>
    match lookupRegs regs ty with
    | some rs =>
      match rs.getLast? with
      | some r => .ok (r, .root regs f, st)
      | none => .error .emptyEntry
    | none =>
      if m.isInterface ty then
        .error (.notRegistered ty)
      else
        let r : Resolver := ⟨ty, st.handlers.length⟩
        .ok (r, .root (regs ++ [(ty, [r])]) f, st.pushTransient)
  | .child regs f p, st, ty =>
    match lookupRegs regs ty with
    | some rs =>
      match rs.getLast? with
      | some r => .ok (r, .child regs f p, st)
      | none => .error .emptyEntry
    | none =>
      match getResolver m p st ty with
      | .error e => .error e
      | .ok (r, p1, st1) => .ok (r, .child regs f p1, st1)

/-- The result storage `getResolver` produces on the auto-registration
path: the root table gains one entry, every other table is untouched. -/
def autoReg : Storage → Nat → Nat → Storage
  | .root regs f, ty, ref => .root (regs ++ [(ty, [⟨ty, ref⟩])]) f
  | .child regs f p, ty, ref => .child regs f (autoReg p ty ref)

/-- The argument-preparation loop of the blueprint branch of `Inject`
(lines 107-123): resolve each parameter class in order through the given
resolution function, threading all state. -/
def resolveParams (rec : Storage → St → Nat → Except Err (Obj × Storage × St × List Ev)) :
    Storage → St → List Nat → Except Err (List Obj × Storage × St × List Ev)
  | s, st, [] => .ok ([], s, st, [])
  | s, st, d :: ds =>
    match rec s st d with
    | .error e => .error e
    | .ok (o, s1, st1, t1) =>
      match resolveParams rec s1 st1 ds with
      | .error e => .error e
      | .ok (os, s2, st2, t2) => .ok (o :: os, s2, st2, t1 ++ t2)

/-- `Inject` (lines 83-131), parameterised by the resolution function used
for blueprint parameters (`this->Resolve` in the source): call the native
initializer if present, then the blueprint initializer if present — its
parameters being resolved in order against the same storage — and report
whether any injection occurred. -/
def injectG (m : TypeMeta) (rec : Storage → St → Nat → Except Err (Obj × Storage × St × List Ev))
    (s : Storage) (st : St) (o : Obj) :
    Except Err (Bool × Obj × Storage × St × List Ev) :=
  let tN : List Ev := if m.hasNativeInit o.cls then [Ev.nativeInit o.oid] else []
  match m.blueprintParams o.cls with
  | none => .ok (m.hasNativeInit o.cls, o, s, st, tN)
  | some ds =>
    match resolveParams rec s st ds with
    | .error e => .error e
    | .ok (os, s1, st1, tP) =>
      .ok (true, { o with depCls := os.map (fun x => x.cls) }, s1, st1,
           tN ++ tP ++ [Ev.blueprintInit o.oid])

/-- `ResolveImpl` (lines 227-250), parameterised by the resolution function
used for nested dependencies: if the lifetime handler already holds an
instance, return it unchanged; otherwise find a factory for the effective
class, create, inject, finalize, store through the handler and return. -/
def resolveImplG (m : TypeMeta) (rec : Storage → St → Nat → Except Err (Obj × Storage × St × List Ev))
    (s : Storage) (st : St) (r : Resolver) : Except Err (Obj × Storage × St × List Ev) :=
  match (hGet st r.lifetimeRef).get with
  | some x => .ok (x, s, st, [])
  | none =>
    match findInstanceFactory s r.effectiveClass with
    | none => .error .noFactory
    | some fac =>
      let o0 : Obj := ⟨st.counter, r.effectiveClass, fac.fid, []⟩
      match injectG m rec s { st with counter := st.counter + 1 } o0 with
      | .error e => .error e
      | .ok (_, o1, s2, st2, tInj) =>
        .ok (o1, s2, hSet st2 r.lifetimeRef o1,
             Ev.created o0.oid r.effectiveClass fac.fid ::
               (tInj ++ [Ev.finalized o1.oid, Ev.stored o1.oid]))

/-- `Resolve` (lines 50-54), with fuel bounding the recursion depth:
look up the binding, then run `ResolveImpl` against the same storage. -/
def resolveFuel (m : TypeMeta) : Nat → Storage → St → Nat → Except Err (Obj × Storage × St × List Ev)
  | 0, _, _, _ => .error .outOfFuel
  | fuel + 1, s, st, ty =>
    match getResolver m s st ty with
    | .error e => .error e
    | .ok (r, s1, st1) => resolveImplG m (resolveFuel m fuel) s1 st1 r

/-- The per-scope loop of `AppendObjectsCollection` (lines 259-267):
resolve each local binding in registration order, threading state. -/
def resolveResolvers (m : TypeMeta) (rec : Storage → St → Nat → Except Err (Obj × Storage × St × List Ev)) :
    Storage → St → List Resolver → Except Err (List Obj × Storage × St × List Ev)
  | s, st, [] => .ok ([], s, st, [])
  | s, st, r :: rest =>
    match resolveImplG m rec s st r with
    | .error e => .error e
    | .ok (o, s1, st1, t1) =>
      match resolveResolvers m rec s1 st1 rest with
      | .error e => .error e
      | .ok (os, s2, st2, t2) => .ok (o :: os, s2, st2, t1 ++ t2)

/-- `AppendObjectsCollection` (lines 252-268): recurse into the parent
first, then resolve the local bindings in registration order. -/
def appendObjectsCollection (m : TypeMeta)
    (rec : Storage → St → Nat → Except Err (Obj × Storage × St × List Ev)) :
    Storage → St → Nat → Except Err (List Obj × Storage × St × List Ev)
  | .root regs f, st, ty =>
      resolveResolvers m rec (.root regs f) st ((lookupRegs regs ty).getD [])
  | .child regs f p, st, ty =>
    match appendObjectsCollection m rec p st ty with
    | .error e => .error e
    | .ok (os1, p1, st1, t1) =>
      match resolveResolvers m rec (.child regs f p1) st1 ((lookupRegs regs ty).getD []) with
      | .error e => .error e
      | .ok (os2, s2, st2, t2) => .ok (os1 ++ os2, s2, st2, t1 ++ t2)

/-- `ResolveAll` (lines 56-81): compute the chain-wide binding count, fail
fatally when it is zero, else collect ancestor-first. -/
def resolveAllFuel (m : TypeMeta) (fuel : Nat) (s : Storage) (st : St) (ty : Nat) :
    Except Err (List Obj × Storage × St × List Ev) :=
  if totalResolvers s ty = 0 then .error (.notRegisteredAll ty)
  else appendObjectsCollection m (resolveFuel m fuel) s st ty

/-- `CanInject` (lines 133-141): report whether either initializer exists,
from metadata alone. -/
def canInject (m : TypeMeta) (cls : Nat) : Bool :=
  m.hasNativeInit cls || (m.blueprintParams cls).isSome

/-- `FindOrAdd` + `Emplace` of `AddRegistration` (lines 178-183). -/
def regsEmplace : Regs → Nat → Resolver → Regs
  | [], ty, r => [(ty, [r])]
  | (k, rs) :: rest, ty, r =>
    if k = ty then (k, rs ++ [r]) :: rest else (k, rs) :: regsEmplace rest ty r

/-- `AddRegistration`: register a binding in the local table, allocating its
lifetime handler in the store. -/
def addRegistration : Storage → St → Nat → Nat → LT → Storage × St
  | .root regs f, st, iface, eff =>
      fun h => (.root (regsEmplace regs iface ⟨eff, st.handlers.length⟩) f,
                { st with handlers := st.handlers ++ [h] })
  | .child regs f p, st, iface, eff =>
      fun h => (.child (regsEmplace regs iface ⟨eff, st.handlers.length⟩) f p,
                { st with handlers := st.handlers ++ [h] })

/-! ## Helper lemmas -/

theorem find?_append {α : Type} (p : α → Bool) (l₁ l₂ : List α) :
    (l₁ ++ l₂).find? p = ((l₁.find? p).orElse fun _ => l₂.find? p) := by
  induction l₁ with
  | nil => rfl
  | cons a l ih =>
    by_cases h : p a = true
    · simp [List.find?, h, Option.orElse]
    · simp only [List.cons_append, List.find?]
      rw [Bool.not_eq_true] at h
      simp [h, ih]

/-! ## C1: single resolve uses the last local binding -/

/-- C1: for every scope whose local table holds a (nonempty) binding list for
a type, `GetResolver` returns the last (most recently registered) binding of
that list, leaving the storage and handler store untouched, and `Resolve`
continues into `ResolveImpl` with exactly that binding. -/
theorem c1_resolve_uses_last_local_binding
    (m : TypeMeta) (fuel : Nat) (s : Storage) (st : St) (ty : Nat)
    (rs : List Resolver) (hfind : lookupRegs s.localRegs ty = some rs) (hne : rs ≠ []) :
    getResolver m s st ty = .ok (rs.getLast hne, s, st) ∧
    resolveFuel m (fuel + 1) s st ty =
      resolveImplG m (resolveFuel m fuel) s st (rs.getLast hne) := by
  cases s with
  | root regs f =>
    simp only [Storage.localRegs] at hfind
    refine ⟨?_, ?_⟩ <;>
      simp [getResolver, resolveFuel, hfind, List.getLast?_eq_getLast_of_ne_nil hne]
  | child regs f p =>
    simp only [Storage.localRegs] at hfind
    refine ⟨?_, ?_⟩ <;>
      simp [getResolver, resolveFuel, hfind, List.getLast?_eq_getLast_of_ne_nil hne]

def mTest : TypeMeta := ⟨fun n => n == 100, fun _ => false, fun _ => none⟩

def stTest : St := ⟨0, [LT.transient, LT.transient]⟩

def sTest1 : Storage := .root [(5, [⟨7, 0⟩, ⟨9, 1⟩])] []

theorem c1_witness :
    getResolver mTest sTest1 stTest 5 = .ok (⟨9, 1⟩, sTest1, stTest) ∧
    resolveFuel mTest 3 sTest1 stTest 5 =
      resolveImplG mTest (resolveFuel mTest 2) sTest1 stTest ⟨9, 1⟩ :=
  c1_resolve_uses_last_local_binding mTest 2 sTest1 stTest 5 [⟨7, 0⟩, ⟨9, 1⟩] rfl
    (by decide)

/-! ## C2: a local binding fully shadows every ancestor -/

/-- C2: when a scope with a parent has any local binding for the requested
type, `GetResolver` answers from the local table alone — the result is the
last local binding, for every possible parent chain, so the parent is never
consulted. -/
theorem c2_local_binding_shadows_parent
    (m : TypeMeta) (regs : Regs) (f : List Factory) (p : Storage) (st : St) (ty : Nat)
    (rs : List Resolver) (hfind : lookupRegs regs ty = some rs) (hne : rs ≠ []) :
    getResolver m (.child regs f p) st ty = .ok (rs.getLast hne, .child regs f p, st) := by
  simp [getResolver, hfind, List.getLast?_eq_getLast_of_ne_nil hne]

def sParentX : Storage := .root [(5, [⟨21, 0⟩])] []

def sParentY : Storage := .root [(5, [⟨22, 0⟩]), (6, [⟨23, 1⟩])] []

theorem c2_witness :
    getResolver mTest (.child [(5, [⟨9, 1⟩])] [] sParentX) stTest 5 =
      .ok (⟨9, 1⟩, .child [(5, [⟨9, 1⟩])] [] sParentX, stTest) ∧
    getResolver mTest (.child [(5, [⟨9, 1⟩])] [] sParentY) stTest 5 =
      .ok (⟨9, 1⟩, .child [(5, [⟨9, 1⟩])] [] sParentY, stTest) :=
  ⟨c2_local_binding_shadows_parent mTest [(5, [⟨9, 1⟩])] [] sParentX stTest 5 [⟨9, 1⟩]
      rfl (by decide),
   c2_local_binding_shadows_parent mTest [(5, [⟨9, 1⟩])] [] sParentY stTest 5 [⟨9, 1⟩]
      rfl (by decide)⟩

/-! ## Auto-registration lemmas -/

theorem lookupRegs_append_self {regs : Regs} {ty : Nat} (rs : List Resolver)
    (h : lookupRegs regs ty = none) :
    lookupRegs (regs ++ [(ty, rs)]) ty = some rs := by
  induction regs with
  | nil => simp [lookupRegs]
  | cons a rest ih =>
    obtain ⟨k, v⟩ := a
    by_cases hk : k = ty
    · simp [lookupRegs, hk] at h
    · simp only [lookupRegs, hk, if_false] at h
      simp only [List.cons_append, lookupRegs, hk, if_false]
      exact ih h

theorem lookupRegs_append_isSome (regs : Regs) (ty : Nat) (rs : List Resolver) :
    (lookupRegs (regs ++ [(ty, rs)]) ty).isSome = true := by
  induction regs with
  | nil => simp [lookupRegs]
  | cons a rest ih =>
    obtain ⟨k, v⟩ := a
    by_cases hk : k = ty
    · simp [lookupRegs, hk]
    · simpa [lookupRegs, hk] using ih

theorem getD_append_length {α : Type} (l : List α) (x d : α) :
    (l ++ [x]).getD l.length d = x := by
  induction l with
  | nil => rfl
  | cons a rest ih => simp only [List.cons_append, List.length_cons, List.getD_cons_succ]; exact ih

theorem isRegistered_root_lookup {regs : Regs} {f : List Factory} {ty : Nat}
    (h : isRegistered (.root regs f) ty = false) : lookupRegs regs ty = none := by
  cases hlk : lookupRegs regs ty with
  | none => rfl
  | some rs => simp [isRegistered, hlk] at h

theorem isRegistered_child_split {regs : Regs} {f : List Factory} {p : Storage} {ty : Nat}
    (h : isRegistered (.child regs f p) ty = false) :
    lookupRegs regs ty = none ∧ isRegistered p ty = false := by
  cases hlk : lookupRegs regs ty with
  | none =>
    refine ⟨rfl, ?_⟩
    simpa [isRegistered, hlk] using h
  | some rs => simp [isRegistered, hlk] at h

/-- `GetResolver` on a chain-wide-unregistered, instantiable type: the
auto-registration path, landing at the root. -/
theorem getResolver_autoReg (m : TypeMeta) (s : Storage) (st : St) (ty : Nat)
    (hnreg : isRegistered s ty = false) (hinst : m.isInterface ty = false) :
    getResolver m s st ty =
      .ok (⟨ty, st.handlers.length⟩, autoReg s ty st.handlers.length, st.pushTransient) := by
  induction s with
  | root regs f =>
    have hlk := isRegistered_root_lookup hnreg
    simp [getResolver, hlk, hinst, autoReg]
  | child regs f p ih =>
    obtain ⟨hlk, hp⟩ := isRegistered_child_split hnreg
    simp [getResolver, hlk, ih hp, autoReg]

/-- `GetResolver` on a chain-wide-unregistered, interface-only type: fatal
configuration error naming the type, with no auto-registration. -/
theorem getResolver_interfaceFatal (m : TypeMeta) (s : Storage) (st : St) (ty : Nat)
    (hnreg : isRegistered s ty = false) (hint : m.isInterface ty = true) :
    getResolver m s st ty = .error (.notRegistered ty) := by
  induction s with
  | root regs f =>
    have hlk := isRegistered_root_lookup hnreg
    simp [getResolver, hlk, hint]
  | child regs f p ih =>
    obtain ⟨hlk, hp⟩ := isRegistered_child_split hnreg
    simp [getResolver, hlk, ih hp]

/-- A second lookup after auto-registration finds the existing entry and
changes nothing. -/
theorem getResolver_after_autoReg (m : TypeMeta) (s : Storage) (st2 : St) (ty ref : Nat)
    (hnreg : isRegistered s ty = false) :
    getResolver m (autoReg s ty ref) st2 ty =
      .ok (⟨ty, ref⟩, autoReg s ty ref, st2) := by
  induction s with
  | root regs f =>
    have hlk := isRegistered_root_lookup hnreg
    simp [autoReg, getResolver, lookupRegs_append_self _ hlk]
  | child regs f p ih =>
    obtain ⟨hlk, hp⟩ := isRegistered_child_split hnreg
    simp [autoReg, getResolver, hlk, ih hp]

/-! ## C5: auto-registration of instantiable types, fatal error on
interface-only types -/

/-- C5: on a type with no binding anywhere in the chain, `GetResolver`
auto-registers an instantiable type exactly once — as a Transient binding
whose effective class is the type itself, after which a second resolve finds
the existing entry and changes nothing — while an interface-only type is a
fatal configuration error naming the type, with nothing registered. -/
theorem c5_auto_registration_or_interface_fatal
    (m : TypeMeta) (s : Storage) (st : St) (ty : Nat)
    (hnreg : isRegistered s ty = false) :
    (m.isInterface ty = false →
      getResolver m s st ty =
        .ok (⟨ty, st.handlers.length⟩, autoReg s ty st.handlers.length, st.pushTransient) ∧
      hGet st.pushTransient st.handlers.length = .transient ∧
      getResolver m (autoReg s ty st.handlers.length) st.pushTransient ty =
        .ok (⟨ty, st.handlers.length⟩, autoReg s ty st.handlers.length, st.pushTransient)) ∧
    (m.isInterface ty = true →
      getResolver m s st ty = .error (.notRegistered ty)) := by
  refine ⟨fun hinst => ⟨?_, ?_, ?_⟩, fun hint => ?_⟩
  · exact getResolver_autoReg m s st ty hnreg hinst
  · simp [hGet, St.pushTransient, getD_append_length]
  · exact getResolver_after_autoReg m s st.pushTransient ty st.handlers.length hnreg
  · exact getResolver_interfaceFatal m s st ty hnreg hint

def mIface : TypeMeta := ⟨fun n => n == 100, fun _ => false, fun _ => none⟩

theorem c5_witness :
    (getResolver mIface sTest1 stTest 7 =
      .ok (⟨7, 2⟩, autoReg sTest1 7 2, stTest.pushTransient) ∧
     hGet stTest.pushTransient 2 = .transient ∧
     getResolver mIface (autoReg sTest1 7 2) stTest.pushTransient 7 =
      .ok (⟨7, 2⟩, autoReg sTest1 7 2, stTest.pushTransient)) ∧
    getResolver mIface sTest1 stTest 100 = .error (.notRegistered 100) :=
  ⟨(c5_auto_registration_or_interface_fatal mIface sTest1 stTest 7 (by decide)).1 rfl,
   (c5_auto_registration_or_interface_fatal mIface sTest1 stTest 100 (by decide)).2 rfl⟩

/-! ## C10: auto-registration mutates only the root table -/

theorem scopesRegs_ne_nil (s : Storage) : scopesRegs s ≠ [] := by
  cases s <;> simp [scopesRegs]

theorem scopesRegs_autoReg (s : Storage) (ty ref : Nat) :
    scopesRegs (autoReg s ty ref) =
      (scopesRegs s).dropLast ++ [rootRegs s ++ [(ty, [⟨ty, ref⟩])]] := by
  induction s with
  | root regs f => simp [autoReg, scopesRegs, rootRegs]
  | child regs f p ih =>
    simp only [autoReg, scopesRegs, rootRegs, ih]
    rw [List.dropLast_cons_of_ne_nil (scopesRegs_ne_nil p)]
    simp

theorem isRegistered_autoReg (s : Storage) (ty ref : Nat) :
    isRegistered (autoReg s ty ref) ty = true := by
  induction s with
  | root regs f => simp [autoReg, isRegistered, lookupRegs_append_isSome]
  | child regs f p ih => simp [autoReg, isRegistered, ih]

theorem isRegistered_chainScopes_autoReg (s : Storage) (ty ref : Nat) :
    ∀ t ∈ chainScopes (autoReg s ty ref), isRegistered t ty = true := by
  induction s with
  | root regs f =>
    intro t ht
    simp only [autoReg, chainScopes, List.mem_singleton] at ht
    subst ht
    simp [isRegistered, lookupRegs_append_isSome]
  | child regs f p ih =>
    intro t ht
    simp only [autoReg, chainScopes, List.mem_cons] at ht
    rcases ht with h | h
    · subst h
      simp [isRegistered, isRegistered_autoReg]
    · exact ih t h

/-- C10: when a scope that has a parent resolves an instantiable type with
no binding anywhere in the chain, the auto-registered Transient binding is
appended to the root's table; the requesting scope's table and every
intermediate table are unchanged, and afterwards `IsRegistered` answers true
from every scope of the chain. -/
theorem c10_auto_registration_lands_at_root
    (m : TypeMeta) (regs : Regs) (f : List Factory) (p : Storage) (st : St) (ty : Nat)
    (hnreg : isRegistered (.child regs f p) ty = false)
    (hinst : m.isInterface ty = false) :
    getResolver m (.child regs f p) st ty =
      .ok (⟨ty, st.handlers.length⟩,
           .child regs f (autoReg p ty st.handlers.length), st.pushTransient) ∧
    (Storage.child regs f (autoReg p ty st.handlers.length)).localRegs = regs ∧
    scopesRegs (.child regs f (autoReg p ty st.handlers.length)) =
      (scopesRegs (.child regs f p)).dropLast ++
        [rootRegs (.child regs f p) ++ [(ty, [⟨ty, st.handlers.length⟩])]] ∧
    ∀ t ∈ chainScopes (.child regs f (autoReg p ty st.handlers.length)),
      isRegistered t ty = true := by
  refine ⟨?_, rfl, ?_, ?_⟩
  · have h := getResolver_autoReg m (.child regs f p) st ty hnreg hinst
    simpa [autoReg] using h
  · have h := scopesRegs_autoReg (.child regs f p) ty st.handlers.length
    simpa [autoReg] using h
  · have h := isRegistered_chainScopes_autoReg (.child regs f p) ty st.handlers.length
    simpa [autoReg] using h

def sMid : Storage := .child [(6, [⟨6, 1⟩])] [] sParentX

theorem c10_witness :
    getResolver mIface (.child [] [] sMid) stTest 7 =
      .ok (⟨7, 2⟩, .child [] [] (autoReg sMid 7 2), stTest.pushTransient) ∧
    (Storage.child [] [] (autoReg sMid 7 2)).localRegs = [] ∧
    scopesRegs (.child [] [] (autoReg sMid 7 2)) =
      (scopesRegs (.child [] [] sMid)).dropLast ++ [[(5, [⟨21, 0⟩])] ++ [(7, [⟨7, 2⟩])]] ∧
    ∀ t ∈ chainScopes (.child [] [] (autoReg sMid 7 2)), isRegistered t 7 = true :=
  c10_auto_registration_lands_at_root mIface [] [] sMid stTest 7 (by decide) rfl

/-! ## C6: collect-all is fatal on a wholly unregistered type and never
auto-registers -/

theorem totalResolvers_eq_zero (s : Storage) (ty : Nat)
    (h : ∀ t ∈ chainScopes s, (lookupRegs t.localRegs ty).getD [] = []) :
    totalResolvers s ty = 0 := by
  induction s with
  | root regs f =>
    have := h (.root regs f) (by simp [chainScopes])
    simp only [Storage.localRegs] at this
    simp [totalResolvers, this]
  | child regs f p ih =>
    have h0 := h (.child regs f p) (by simp [chainScopes])
    simp only [Storage.localRegs] at h0
    have hp := ih fun t ht => h t (by simp [chainScopes, ht])
    simp [totalResolvers, h0, hp]

/-- C6: for a type with zero bindings across the whole scope chain,
`ResolveAll` fails fatally as a usage error naming the type and performs no
auto-registration — for every metadata assignment, hence also for types that
single resolve would have auto-registered. -/
theorem c6_resolveall_fatal_when_wholly_unregistered
    (m : TypeMeta) (fuel : Nat) (s : Storage) (st : St) (ty : Nat)
    (h : ∀ t ∈ chainScopes s, (lookupRegs t.localRegs ty).getD [] = []) :
    totalResolvers s ty = 0 ∧
    resolveAllFuel m fuel s st ty = .error (.notRegisteredAll ty) := by
  have h0 := totalResolvers_eq_zero s ty h
  exact ⟨h0, by simp [resolveAllFuel, h0]⟩

theorem c6_witness :
    totalResolvers sTest1 7 = 0 ∧
    resolveAllFuel mIface 5 sTest1 stTest 7 = .error (.notRegisteredAll 7) :=
  c6_resolveall_fatal_when_wholly_unregistered mIface 5 sTest1 stTest 7 (by decide)

/-! ## C7: factory selection order -/

theorem specFactoryOrder_eq_chainFacs (s : Storage) :
    specFactoryOrder s = (chainFacs s).reverse ++ [defaultFactory] := by
  induction s with
  | root regs f => simp [specFactoryOrder, chainFacs]
  | child regs f p ih => simp [specFactoryOrder, chainFacs, ih]

theorem specFactoryOrder_localFacs (s : Storage) :
    ∃ rest, specFactoryOrder s = s.localFacs.reverse ++ rest := by
  cases s with
  | root regs f => exact ⟨[defaultFactory], rfl⟩
  | child regs f p => exact ⟨specFactoryOrder p, rfl⟩

theorem findInstanceFactory_eq_specFindFactory (s : Storage) (ty : Nat) :
    findInstanceFactory s ty = specFindFactory s ty := by
  induction s with
  | root regs f =>
    cases f with
    | nil => simp [findInstanceFactory, specFindFactory, instanceFactories,
        specFactoryOrder, Storage.isRoot, Storage.localFacs, chainFacs]
    | cons g gs =>
      simp [findInstanceFactory, specFindFactory, instanceFactories,
        specFactoryOrder, Storage.isRoot, Storage.localFacs, chainFacs]
  | child regs f p ih =>
    cases f with
    | nil =>
      have h1 : instanceFactories (Storage.child regs [] p) = [] := by
        simp [instanceFactories, Storage.isRoot, Storage.localFacs]
      have h2 : specFactoryOrder (Storage.child regs [] p) = specFactoryOrder p := rfl
      rw [specFindFactory, h2, ← specFindFactory, ← ih]
      simp [findInstanceFactory, h1]
    | cons g gs =>
      have h1 : instanceFactories (Storage.child regs (g :: gs) p) =
          (g :: gs).reverse ++ (chainFacs p).reverse := by
        simp [instanceFactories, Storage.isRoot, Storage.localFacs, chainFacs,
          List.reverse_append]
      have h2 : findInstanceFactory p ty =
          ((chainFacs p).reverse ++ [defaultFactory]).find?
            (fun fac => fac.isClassSupported ty) := by
        rw [ih, specFindFactory, specFactoryOrder_eq_chainFacs]
      have h3 : specFindFactory (Storage.child regs (g :: gs) p) ty =
          ((g :: gs).reverse ++ ((chainFacs p).reverse ++ [defaultFactory])).find?
            (fun fac => fac.isClassSupported ty) := by
        rw [specFindFactory]
        rw [show specFactoryOrder (Storage.child regs (g :: gs) p) =
          (g :: gs).reverse ++ specFactoryOrder p from rfl]
        rw [specFactoryOrder_eq_chainFacs]
      rw [h3]
      simp only [findInstanceFactory, h1, h2]
      rw [find?_append _ ((g :: gs).reverse) ((chainFacs p).reverse ++ [defaultFactory]),
          find?_append _ ((g :: gs).reverse) ((chainFacs p).reverse),
          find?_append _ ((chainFacs p).reverse) [defaultFactory]]
      cases hA : List.find? (fun fac => fac.isClassSupported ty) (g :: gs).reverse with
      | some a => simp [Option.orElse]
      | none =>
        cases hC : List.find? (fun fac => fac.isClassSupported ty) (chainFacs p).reverse with
        | some c => simp [Option.orElse]
        | none => simp [Option.orElse]

theorem specFindFactory_isSome (s : Storage) (ty : Nat) :
    (specFindFactory s ty).isSome = true := by
  rw [specFindFactory, specFactoryOrder_eq_chainFacs, find?_append]
  cases hc : ((chainFacs s).reverse.find? fun fac => fac.isClassSupported ty) with
  | some fac => simp [Option.orElse]
  | none => simp [Option.orElse, List.find?, defaultFactory, Factory.isClassSupported]

/-- C7: the factory chosen to create an instance is exactly the one the
spec's search order selects — locally registered factories most recently
registered first, innermost scope outward, with the universal default
factory last — a search that always succeeds; in particular, if the most
recently registered local factory supports the type it is the one chosen. -/
theorem c7_factory_precedence (s : Storage) (ty : Nat) :
    findInstanceFactory s ty = specFindFactory s ty ∧
    (findInstanceFactory s ty).isSome = true ∧
    (∀ fs f2, s.localFacs = fs ++ [f2] → f2.isClassSupported ty = true →
      findInstanceFactory s ty = some f2) := by
  have heq := findInstanceFactory_eq_specFindFactory s ty
  refine ⟨heq, by rw [heq]; exact specFindFactory_isSome s ty, ?_⟩
  intro fs f2 hloc hsup
  obtain ⟨rest, hrest⟩ := specFactoryOrder_localFacs s
  rw [heq, specFindFactory, hrest, hloc]
  simp [List.find?, hsup]

def facF1 : Factory := ⟨11, false, [40]⟩

def facF2 : Factory := ⟨12, false, [40, 41]⟩

def sFacs : Storage := .child [] [facF1, facF2] (.root [] [])

theorem c7_witness :
    findInstanceFactory sFacs 40 = specFindFactory sFacs 40 ∧
    (findInstanceFactory sFacs 40).isSome = true ∧
    (∀ fs f2, sFacs.localFacs = fs ++ [f2] → f2.isClassSupported 40 = true →
      findInstanceFactory sFacs 40 = some f2) :=
  c7_factory_precedence sFacs 40

/-! ## C4: lazy per-lifetime caching and creation ordering in `ResolveImpl` -/

/-- C4: `ResolveImpl` is lazy and caches per the lifetime policy.  When the
binding's handler already holds an instance, that instance is returned
unchanged, with no injection, no finalization and no state change.
Otherwise a new instance of the binding's effective class is created through
the factory chain, injection runs on it, finalization runs strictly after
injection and before the instance is cached or returned (visible in the
event order), the instance is stored through the handler's `set`, and the
injected instance is what is returned. -/
theorem c4_resolveimpl_lazy_cache_and_ordering
    (m : TypeMeta) (rec : Storage → St → Nat → Except Err (Obj × Storage × St × List Ev))
    (s : Storage) (st : St) (r : Resolver) :
    (∀ x, (hGet st r.lifetimeRef).get = some x →
      resolveImplG m rec s st r = .ok (x, s, st, [])) ∧
    ((hGet st r.lifetimeRef).get = none →
      ∀ o s2 st2 t, resolveImplG m rec s st r = .ok (o, s2, st2, t) →
        ∃ fac b tInj stMid,
          findInstanceFactory s r.effectiveClass = some fac ∧
          injectG m rec s { st with counter := st.counter + 1 }
              ⟨st.counter, r.effectiveClass, fac.fid, []⟩ =
            .ok (b, o, s2, stMid, tInj) ∧
          st2 = hSet stMid r.lifetimeRef o ∧
          t = Ev.created st.counter r.effectiveClass fac.fid ::
                (tInj ++ [Ev.finalized o.oid, Ev.stored o.oid])) := by
  constructor
  · intro x hx
    simp [resolveImplG, hx]
  · intro hx o s2 st2 t hok
    simp only [resolveImplG, hx] at hok
    split at hok
    · exact absurd hok (by simp)
    · rename_i fac hfac
      split at hok
      · exact absurd hok (by simp)
      · rename_i res b o1 s1 st1 tInj hinj
        simp only [Except.ok.injEq, Prod.mk.injEq] at hok
        obtain ⟨ho, hs, hst, ht⟩ := hok
        subst ho hs hst ht
        exact ⟨fac, b, tInj, st1, hfac, hinj, rfl, rfl⟩

def sRootEmpty : Storage := .root [] []

theorem c4_witness :
    resolveImplG mTest (resolveFuel mTest 0) sRootEmpty
        ⟨0, [LT.cached (some ⟨9, 5, 0, []⟩)]⟩ ⟨5, 0⟩ =
      .ok (⟨9, 5, 0, []⟩, sRootEmpty, ⟨0, [LT.cached (some ⟨9, 5, 0, []⟩)]⟩, []) ∧
    (∃ fac b tInj stMid,
      findInstanceFactory sRootEmpty 5 = some fac ∧
      injectG mTest (resolveFuel mTest 0) sRootEmpty ⟨1, [LT.transient]⟩
          ⟨0, 5, fac.fid, []⟩ = .ok (b, ⟨0, 5, 0, []⟩, sRootEmpty, stMid, tInj) ∧
      (⟨1, [LT.transient]⟩ : St) = hSet stMid 0 ⟨0, 5, 0, []⟩ ∧
      [Ev.created 0 5 0, Ev.finalized 0, Ev.stored 0] =
        Ev.created 0 5 fac.fid :: (tInj ++ [Ev.finalized 0, Ev.stored 0])) := by
  constructor
  · exact (c4_resolveimpl_lazy_cache_and_ordering mTest (resolveFuel mTest 0) sRootEmpty
      ⟨0, [LT.cached (some ⟨9, 5, 0, []⟩)]⟩ ⟨5, 0⟩).1 ⟨9, 5, 0, []⟩ rfl
  · exact (c4_resolveimpl_lazy_cache_and_ordering mTest (resolveFuel mTest 0) sRootEmpty
      ⟨0, [LT.transient]⟩ ⟨5, 0⟩).2 rfl ⟨0, 5, 0, []⟩ sRootEmpty ⟨1, [LT.transient]⟩
      [Ev.created 0 5 0, Ev.finalized 0, Ev.stored 0] rfl

/-! ## C8: `Inject` agrees with `CanInject` -/

/-- C8: whenever `Inject` completes, the boolean it reports is exactly
`CanInject` of the instance's class — true iff the class declares a native
or a blueprint initializer — and `CanInject` computes that predicate from
the type metadata alone, with no instance creation and no initializer
execution. -/
theorem c8_inject_agrees_with_canInject
    (m : TypeMeta) (rec : Storage → St → Nat → Except Err (Obj × Storage × St × List Ev))
    (s : Storage) (st : St) (o : Obj)
    (b : Bool) (o2 : Obj) (s2 : Storage) (st2 : St) (t : List Ev)
    (hok : injectG m rec s st o = .ok (b, o2, s2, st2, t)) :
    b = canInject m o.cls ∧
    (b = true ↔
      (m.hasNativeInit o.cls = true ∨ (m.blueprintParams o.cls).isSome = true)) := by
  cases hbp : m.blueprintParams o.cls with
  | none =>
    simp only [injectG, hbp, Except.ok.injEq, Prod.mk.injEq] at hok
    obtain ⟨hb, -, -, -, -⟩ := hok
    subst hb
    constructor
    · simp [canInject, hbp]
    · simp [hbp]
  | some ds =>
    simp only [injectG, hbp] at hok
    cases hps : resolveParams rec s st ds with
    | error e => rw [hps] at hok; exact absurd hok (by simp)
    | ok res =>
      obtain ⟨os, s1, st1, tP⟩ := res
      rw [hps] at hok
      simp only [Except.ok.injEq, Prod.mk.injEq] at hok
      obtain ⟨hb, -, -, -, -⟩ := hok
      subst hb
      constructor
      · simp [canInject, hbp]
      · simp [hbp]

def mNat : TypeMeta := ⟨fun _ => false, fun n => n == 3, fun _ => none⟩

theorem c8_witness :
    true = canInject mNat 3 ∧
    (true = true ↔
      (mNat.hasNativeInit 3 = true ∨ (mNat.blueprintParams 3).isSome = true)) :=
  c8_inject_agrees_with_canInject mNat (resolveFuel mNat 0) sRootEmpty stTest
    ⟨0, 3, 0, []⟩ true ⟨0, 3, 0, []⟩ sRootEmpty stTest [Ev.nativeInit 0] rfl

/-! ## C9: dependencies are resolved in the requesting scope -/

/-- C9: when single resolve creates an instance — even one whose binding
`GetResolver` found in an ancestor — the declared dependencies of its
effective class are resolved by recursive `Resolve` calls on the very chain
the requesting scope handed to `ResolveImpl` (so the requesting scope's
local overrides apply to them), and the instances so obtained are exactly
what is delivered to the new instance. -/
theorem c9_dependencies_resolved_in_requesting_scope
    (m : TypeMeta) (fuel : Nat) (s : Storage) (st : St) (ty : Nat)
    (r : Resolver) (s1 : Storage) (st1 : St)
    (hget : getResolver m s st ty = .ok (r, s1, st1))
    (hmiss : (hGet st1 r.lifetimeRef).get = none)
    (fac : Factory) (hfac : findInstanceFactory s1 r.effectiveClass = some fac)
    (ds : List Nat) (hbp : m.blueprintParams r.effectiveClass = some ds)
    (os : List Obj) (s2 : Storage) (st2 : St) (tP : List Ev)
    (hps : resolveParams (resolveFuel m fuel) s1 { st1 with counter := st1.counter + 1 } ds =
      .ok (os, s2, st2, tP)) :
    ∃ t, resolveFuel m (fuel + 1) s st ty =
      .ok (⟨st1.counter, r.effectiveClass, fac.fid, os.map (fun x => x.cls)⟩, s2,
           hSet st2 r.lifetimeRef
             ⟨st1.counter, r.effectiveClass, fac.fid, os.map (fun x => x.cls)⟩, t) := by
  simp only [resolveFuel, hget]
  simp only [resolveImplG, hmiss, hfac, injectG, hbp, hps]
  exact ⟨_, rfl⟩

def m9 : TypeMeta :=
  ⟨fun n => n == 50, fun _ => false, fun n => if n == 71 then some [50] else none⟩

def sRoot9 : Storage := .root [(50, [⟨60, 0⟩]), (70, [⟨71, 1⟩])] []

def sChild9 : Storage := .child [(50, [⟨61, 2⟩])] [] sRoot9

def st9 : St := ⟨0, [LT.transient, LT.transient, LT.transient]⟩

theorem c9_witness :
    ∃ t, resolveFuel m9 2 sChild9 st9 70 =
      .ok (⟨0, 71, 0, [61]⟩, sChild9,
           hSet ⟨2, [LT.transient, LT.transient, LT.transient]⟩ 1 ⟨0, 71, 0, [61]⟩, t) := by
  exact c9_dependencies_resolved_in_requesting_scope m9 1 sChild9 st9 70 ⟨71, 1⟩ sChild9 st9
    rfl rfl defaultFactory rfl [50] rfl [⟨1, 61, 0, []⟩] sChild9
    ⟨2, [LT.transient, LT.transient, LT.transient]⟩
    [Ev.created 1 61 0, Ev.finalized 1, Ev.stored 1] rfl

/-! ## Infrastructure for the collect-all theorem: handler-store lemmas,
membership lemmas, the state invariant and the extension relation -/

theorem getD_append_lt {α : Type} (l l2 : List α) (k : Nat) (d : α) (h : k < l.length) :
    (l ++ l2).getD k d = l.getD k d := by
  induction l generalizing k with
  | nil => exact absurd h (by simp)
  | cons a rest ih =>
    cases k with
    | zero => rfl
    | succ k =>
      simp only [List.cons_append, List.getD_cons_succ]
      exact ih k (by simpa using h)

theorem getD_set_self {α : Type} (l : List α) (k : Nat) (x d : α) (h : k < l.length) :
    (l.set k x).getD k d = x := by
  induction l generalizing k with
  | nil => exact absurd h (by simp)
  | cons a rest ih =>
    cases k with
    | zero => rfl
    | succ k =>
      simp only [List.set_cons_succ, List.getD_cons_succ]
      exact ih k (by simpa using h)

theorem getD_set_ne {α : Type} (l : List α) (j k : Nat) (x d : α) (h : j ≠ k) :
    (l.set k x).getD j d = l.getD j d := by
  induction l generalizing j k with
  | nil => rfl
  | cons a rest ih =>
    cases k with
    | zero =>
      cases j with
      | zero => exact absurd rfl h
      | succ j => rfl
    | succ k =>
      cases j with
      | zero => rfl
      | succ j =>
        simp only [List.set_cons_succ, List.getD_cons_succ]
        exact ih j k (fun hc => h (by rw [hc]))

/-- All resolvers held by one binding table. -/
def regsResolvers (regs : Regs) : List Resolver := (regs.map Prod.snd).flatten

theorem regsResolvers_cons (k : Nat) (v : List Resolver) (rest : Regs) :
    regsResolvers ((k, v) :: rest) = v ++ regsResolvers rest := by
  simp [regsResolvers]

theorem regsResolvers_append_entry (regs : Regs) (ty : Nat) (rs : List Resolver) :
    regsResolvers (regs ++ [(ty, rs)]) = regsResolvers regs ++ rs := by
  simp [regsResolvers]

theorem allResolvers_root (regs : Regs) (f : List Factory) :
    allResolvers (.root regs f) = regsResolvers regs := rfl

theorem allResolvers_child (regs : Regs) (f : List Factory) (p : Storage) :
    allResolvers (.child regs f p) = allResolvers p ++ regsResolvers regs := rfl

theorem mem_regsResolvers_of_lookup {regs : Regs} {ty : Nat} {rs : List Resolver}
    (h : lookupRegs regs ty = some rs) : ∀ x ∈ rs, x ∈ regsResolvers regs := by
  induction regs with
  | nil => simp [lookupRegs] at h
  | cons a rest ih =>
    obtain ⟨k, v⟩ := a
    intro x hx
    rw [regsResolvers_cons]
    by_cases hk : k = ty
    · simp only [lookupRegs, hk, if_true, Option.some.injEq] at h
      subst h
      exact List.mem_append_left _ hx
    · simp only [lookupRegs, hk, if_false] at h
      exact List.mem_append_right _ (ih h x hx)

/-- Cached-instance consistency of one handler with one binding: whatever
the handler caches is an instance of the binding's effective class. -/
def cachedClsOk : LT → Nat → Bool
  | .cached (some o), c => o.cls == c
  | _, _ => true

/-- State invariant tying a chain to the handler store: every binding's
handler reference is live, no two bindings share a handler (handlers are
per-binding in the source), and every cached instance has its binding's
effective class. -/
def Inv (s : Storage) (st : St) : Prop :=
  (∀ r ∈ allResolvers s, r.lifetimeRef < st.handlers.length) ∧
  ((allResolvers s).map (fun r => r.lifetimeRef)).Nodup ∧
  (∀ r ∈ allResolvers s, cachedClsOk (hGet st r.lifetimeRef) r.effectiveClass = true)

/-- How a chain may grow during resolution: the root table may gain appended
entries, every other table is unchanged. -/
inductive ShapeExt : Storage → Storage → Prop
  | root (regs ext : Regs) (f : List Factory) :
      ShapeExt (.root regs f) (.root (regs ++ ext) f)
  | child (regs : Regs) (f : List Factory) {p p' : Storage} :
      ShapeExt p p' → ShapeExt (.child regs f p) (.child regs f p')

theorem shapeExtRefl : ∀ s : Storage, ShapeExt s s
  | .root regs f => by simpa using ShapeExt.root regs [] f
  | .child regs f p => ShapeExt.child regs f (shapeExtRefl p)

theorem shapeExtTrans : ∀ {a b c : Storage}, ShapeExt a b → ShapeExt b c → ShapeExt a c := by
  intro a b c hab hbc
  induction hab generalizing c with
  | root regs ext f =>
    cases hbc with
    | root _ ext2 _ => simpa [List.append_assoc] using ShapeExt.root regs (ext ++ ext2) f
  | child regs f hp ih =>
    cases hbc with
    | child _ _ hq => exact ShapeExt.child regs f (ih hq)

theorem mem_allResolvers_of_shapeExt : ∀ {s s' : Storage}, ShapeExt s s' →
    ∀ r ∈ allResolvers s, r ∈ allResolvers s' := by
  intro s s' h
  induction h with
  | root regs ext f =>
    intro r hr
    rw [allResolvers_root] at hr ⊢
    simp only [regsResolvers, List.map_append, List.flatten_append]
    exact List.mem_append_left _ hr
  | child regs f hp ih =>
    intro r hr
    rw [allResolvers_child] at hr ⊢
    rcases List.mem_append.1 hr with h1 | h1
    · exact List.mem_append_left _ (ih r h1)
    · exact List.mem_append_right _ h1

/-- What one resolution step may do to the state: extend the chain shape,
grow the handler store, give new resolvers only fresh handler references,
and rewrite an existing handler only to cache an instance of its own
binding's effective class. -/
def Ext (s : Storage) (st : St) (s' : Storage) (st' : St) : Prop :=
  ShapeExt s s' ∧
  st.handlers.length ≤ st'.handlers.length ∧
  (∀ r' ∈ allResolvers s', r' ∈ allResolvers s ∨ st.handlers.length ≤ r'.lifetimeRef) ∧
  (∀ k, k < st.handlers.length →
    hGet st' k = hGet st k ∨
    ∃ r ∈ allResolvers s', r.lifetimeRef = k ∧
      ∃ o, hGet st' k = .cached (some o) ∧ o.cls = r.effectiveClass)

theorem extRefl (s : Storage) (st : St) : Ext s st s st :=
  ⟨shapeExtRefl s, Nat.le_refl _, fun _ h => Or.inl h, fun _ _ => Or.inl (Eq.refl _)⟩

theorem extTrans {s st s' st' s2 st2} (h1 : Ext s st s' st') (h2 : Ext s' st' s2 st2) :
    Ext s st s2 st2 := by
  obtain ⟨hs1, hl1, hf1, ht1⟩ := h1
  obtain ⟨hs2, hl2, hf2, ht2⟩ := h2
  refine ⟨shapeExtTrans hs1 hs2, Nat.le_trans hl1 hl2, ?_, ?_⟩
  · intro r' hr'
    rcases hf2 r' hr' with h | h
    · rcases hf1 r' h with h' | h'
      · exact Or.inl h'
      · exact Or.inr h'
    · exact Or.inr (Nat.le_trans hl1 h)
  · intro k hk
    rcases ht2 k (Nat.lt_of_lt_of_le hk hl1) with h | h
    · rcases ht1 k hk with h' | h'
      · exact Or.inl (h.trans h')
      · obtain ⟨r, hr, href, o, ho, hcls⟩ := h'
        exact Or.inr ⟨r, mem_allResolvers_of_shapeExt hs2 r hr, href, o, h.symm ▸ ho, hcls⟩
    · exact Or.inr h

theorem inv_child_proj {regs : Regs} {f : List Factory} {p : Storage} {st : St}
    (hinv : Inv (.child regs f p) st) : Inv p st := by
  obtain ⟨h1, h2, h3⟩ := hinv
  rw [allResolvers_child] at h1 h2 h3
  exact ⟨fun r hr => h1 r (List.mem_append_left _ hr),
    ((List.nodup_append.1 (by simpa using h2)).1),
    fun r hr => h3 r (List.mem_append_left _ hr)⟩

theorem eq_of_mem_nodup_ref : ∀ {l : List Resolver},
    ((l.map (fun r => r.lifetimeRef)).Nodup) →
    ∀ {a b : Resolver}, a ∈ l → b ∈ l → a.lifetimeRef = b.lifetimeRef → a = b := by
  intro l
  induction l with
  | nil => intro _ a b ha; simp at ha
  | cons x xs ih =>
    intro hnd a b ha hb href
    simp only [List.map_cons, List.nodup_cons] at hnd
    obtain ⟨hx, hxs⟩ := hnd
    rcases List.mem_cons.1 ha with ha1 | ha1 <;> rcases List.mem_cons.1 hb with hb1 | hb1
    · rw [ha1, hb1]
    · subst ha1
      exact absurd (href ▸ List.mem_map_of_mem (fun r => r.lifetimeRef) hb1) hx
    · subst hb1
      exact absurd (href ▸ List.mem_map_of_mem (fun r => r.lifetimeRef) ha1) hx
    · exact ih hxs ha1 hb1 href

theorem mem_of_getLast?_eq {α : Type} {l : List α} {a : α} (h : l.getLast? = some a) :
    a ∈ l := by
  obtain ⟨hne, heq⟩ := List.mem_getLast?_eq_getLast (show a ∈ l.getLast? from h)
  rw [heq]
  exact List.getLast_mem hne

/-- Re-assemble a child invariant after the parent sub-chain evolved. -/
theorem inv_child_restore (regs : Regs) (f : List Factory) {p p' : Storage} {st st' : St}
    (hinv : Inv (.child regs f p) st)
    (hinvp : Inv p' st') (hext : Ext p st p' st') :
    Inv (.child regs f p') st' ∧ Ext (.child regs f p) st (.child regs f p') st' := by
  obtain ⟨h1, h2, h3⟩ := hinv
  rw [allResolvers_child] at h1 h2 h3
  obtain ⟨hp1, hp2, hp3⟩ := hinvp
  obtain ⟨hes, hel, hef, het⟩ := hext
  have hL1 : ∀ r ∈ regsResolvers regs, r.lifetimeRef < st.handlers.length :=
    fun r hr => h1 r (List.mem_append_right _ hr)
  have hL3 : ∀ r ∈ regsResolvers regs,
      cachedClsOk (hGet st r.lifetimeRef) r.effectiveClass = true :=
    fun r hr => h3 r (List.mem_append_right _ hr)
  rw [List.map_append] at h2
  obtain ⟨hndA, hndL, hdisj⟩ := List.nodup_append.1 h2
  refine ⟨⟨?_, ?_, ?_⟩, ShapeExt.child regs f hes, hel, ?_, ?_⟩
  · intro r hr
    rw [allResolvers_child] at hr
    rcases List.mem_append.1 hr with h | h
    · exact hp1 r h
    · exact Nat.lt_of_lt_of_le (hL1 r h) hel
  · rw [allResolvers_child, List.map_append]
    refine List.nodup_append.2 ⟨hp2, hndL, ?_⟩
    intro a ha haL
    obtain ⟨r', hr', ha'⟩ := List.mem_map.1 ha
    obtain ⟨rl, hrl, hal⟩ := List.mem_map.1 haL
    rcases hef r' hr' with hmem | hge
    · exact hdisj (ha' ▸ List.mem_map_of_mem (fun x => x.lifetimeRef) hmem) haL
    · exact absurd (hal ▸ hL1 rl hrl) (Nat.not_lt.2 (ha' ▸ hge))
  · intro r hr
    rw [allResolvers_child] at hr
    rcases List.mem_append.1 hr with h | h
    · exact hp3 r h
    · rcases het r.lifetimeRef (hL1 r h) with heq | ⟨r'', hr'', href, o, ho, hcls⟩
      · rw [heq]
        exact hL3 r h
      · rcases hef r'' hr'' with hmem | hge
        · exact absurd (href ▸ List.mem_map_of_mem (fun x => x.lifetimeRef) h)
            (fun hc => hdisj (List.mem_map_of_mem _ hmem) hc)
        · rw [href] at hge
          exact absurd (hL1 r h) (Nat.not_lt.2 hge)
  · intro r' hr'
    rw [allResolvers_child] at hr'
    rcases List.mem_append.1 hr' with h | h
    · rcases hef r' h with hmem | hge
      · exact Or.inl (by rw [allResolvers_child]; exact List.mem_append_left _ hmem)
      · exact Or.inr hge
    · exact Or.inl (by rw [allResolvers_child]; exact List.mem_append_right _ h)
  · intro k hk
    rcases het k hk with h | ⟨r, hr, href, o, ho, hcls⟩
    · exact Or.inl h
    · exact Or.inr ⟨r, by rw [allResolvers_child]; exact List.mem_append_left _ hr,
        href, o, ho, hcls⟩

/-- Storing an instance of a binding's own effective class through that
binding's handler preserves the invariant and is a legal extension. -/
theorem hSet_inv {s2 : Storage} {st2 : St} {r : Resolver} {o : Obj}
    (hinv : Inv s2 st2) (hr : r ∈ allResolvers s2) (hcls : o.cls = r.effectiveClass) :
    Inv s2 (hSet st2 r.lifetimeRef o) ∧ Ext s2 st2 s2 (hSet st2 r.lifetimeRef o) := by
  obtain ⟨h1, h2, h3⟩ := hinv
  have hlen : (hSet st2 r.lifetimeRef o).handlers.length = st2.handlers.length := by
    simp [hSet]
  have hget_ne : ∀ j, j ≠ r.lifetimeRef →
      hGet (hSet st2 r.lifetimeRef o) j = hGet st2 j := by
    intro j hj
    simp only [hGet, hSet]
    exact getD_set_ne _ j r.lifetimeRef _ _ hj
  have hget_self :
      hGet (hSet st2 r.lifetimeRef o) r.lifetimeRef = (hGet st2 r.lifetimeRef).set o := by
    simp only [hGet, hSet]
    exact getD_set_self _ _ _ _ (h1 r hr)
  refine ⟨⟨fun r' hr' => hlen ▸ h1 r' hr', h2, ?_⟩,
    shapeExtRefl s2, hlen ▸ Nat.le_refl _, fun _ h => Or.inl h, ?_⟩
  · intro r' hr'
    by_cases hj : r'.lifetimeRef = r.lifetimeRef
    · have heq : r' = r := eq_of_mem_nodup_ref h2 hr' hr hj
      subst heq
      rw [hget_self]
      cases hg : hGet st2 r'.lifetimeRef with
      | transient => simp [LT.set, cachedClsOk]
      | cached v => simp [LT.set, cachedClsOk, hcls]
    · rw [hget_ne _ hj]
      exact h3 r' hr'
  · intro k hk
    by_cases hj : k = r.lifetimeRef
    · subst hj
      cases hg : hGet st2 r.lifetimeRef with
      | transient =>
        exact Or.inl (by rw [hget_self, hg]; rfl)
      | cached v =>
        exact Or.inr ⟨r, hr, rfl, o, by rw [hget_self, hg]; rfl, hcls⟩
    · exact Or.inl (hget_ne _ hj)

/-- `GetResolver` preserves the invariant, is a legal extension, and returns
a binding registered in the resulting chain. -/
theorem getResolver_inv (m : TypeMeta) :
    ∀ (s : Storage) (st : St) (ty : Nat) (r : Resolver) (s' : Storage) (st' : St),
      Inv s st → getResolver m s st ty = .ok (r, s', st') →
      Inv s' st' ∧ Ext s st s' st' ∧ r ∈ allResolvers s' := by
  intro s
  induction s with
  | root regs f =>
    intro st ty r s' st' hinv h
    simp only [getResolver] at h
    split at h
    · rename_i rs hlk
      split at h
      · rename_i rr hlast
        simp only [Except.ok.injEq, Prod.mk.injEq] at h
        obtain ⟨hr, hs, hst⟩ := h
        subst hr hs hst
        exact ⟨hinv, extRefl _ _, by
          rw [allResolvers_root]
          exact mem_regsResolvers_of_lookup hlk _ (mem_of_getLast?_eq hlast)⟩
      · exact absurd h (by simp)
    · rename_i hlk
      split at h
      · exact absurd h (by simp)
      · simp only [Except.ok.injEq, Prod.mk.injEq] at h
        obtain ⟨hr, hs, hst⟩ := h
        subst hr hs hst
        obtain ⟨h1, h2, h3⟩ := hinv
        rw [allResolvers_root] at h1 h2 h3
        have hlen : (st.pushTransient).handlers.length = st.handlers.length + 1 := by
          simp [St.pushTransient]
        have hmemnew : (⟨ty, st.handlers.length⟩ : Resolver) ∈
            allResolvers (.root (regs ++ [(ty, [⟨ty, st.handlers.length⟩])]) f) := by
          rw [allResolvers_root, regsResolvers_append_entry]
          exact List.mem_append_right _ (List.mem_singleton.2 (Eq.refl _))
        refine ⟨⟨?_, ?_, ?_⟩, ⟨ShapeExt.root regs [(ty, [_])] f, by rw [hlen]; exact Nat.le_succ _, ?_, ?_⟩, hmemnew⟩
        · intro r' hr'
          rw [allResolvers_root, regsResolvers_append_entry] at hr'
          rcases List.mem_append.1 hr' with hm | hm
          · rw [hlen]
            exact Nat.lt_succ_of_lt (h1 r' hm)
          · rw [List.mem_singleton.1 hm, hlen]
            exact Nat.lt_succ_self _
        · rw [allResolvers_root, regsResolvers_append_entry, List.map_append]
          refine List.nodup_append.2 ⟨h2, by simp, ?_⟩
          intro a ha hb
          obtain ⟨r0, hr0, ha0⟩ := List.mem_map.1 ha
          simp only [List.map_cons, List.map_nil, List.mem_singleton] at hb
          rw [hb] at ha0
          exact absurd (ha0 ▸ h1 r0 hr0) (Nat.lt_irrefl _)
        · intro r' hr'
          rw [allResolvers_root, regsResolvers_append_entry] at hr'
          rcases List.mem_append.1 hr' with hm | hm
          · have : hGet st.pushTransient r'.lifetimeRef = hGet st r'.lifetimeRef := by
              simp only [hGet, St.pushTransient]
              exact getD_append_lt _ _ _ _ (h1 r' hm)
            rw [this]
            exact h3 r' hm
          · rw [List.mem_singleton.1 hm]
            have : hGet st.pushTransient st.handlers.length = .transient := by
              simp only [hGet, St.pushTransient]
              exact getD_append_length _ _ _
            rw [this]
            rfl
        · intro r' hr'
          rw [allResolvers_root, regsResolvers_append_entry] at hr'
          rcases List.mem_append.1 hr' with hm | hm
          · exact Or.inl (by rw [allResolvers_root]; exact hm)
          · rw [List.mem_singleton.1 hm]
            exact Or.inr (Nat.le_refl _)
        · intro k hk
          refine Or.inl ?_
          simp only [hGet, St.pushTransient]
          exact getD_append_lt _ _ _ _ hk
  | child regs f p ih =>
    intro st ty r s' st' hinv h
    simp only [getResolver] at h
    split at h
    · rename_i rs hlk
      split at h
      · rename_i rr hlast
        simp only [Except.ok.injEq, Prod.mk.injEq] at h
        obtain ⟨hr, hs, hst⟩ := h
        subst hr hs hst
        exact ⟨hinv, extRefl _ _, by
          rw [allResolvers_child]
          exact List.mem_append_right _
            (mem_regsResolvers_of_lookup hlk _ (mem_of_getLast?_eq hlast))⟩
      · exact absurd h (by simp)
    · rename_i hlk
      split at h
      · exact absurd h (by simp)
      · rename_i res r0 p1 st1 hrec
        simp only [Except.ok.injEq, Prod.mk.injEq] at h
        obtain ⟨hr, hs, hst⟩ := h
        subst hr hs hst
        obtain ⟨hinvp1, hextp, hmem⟩ := ih st ty r0 p1 st1 (inv_child_proj hinv) hrec
        obtain ⟨hinv', hext'⟩ := inv_child_restore regs f hinv hinvp1 hextp
        exact ⟨hinv', hext', by
          rw [allResolvers_child]
          exact List.mem_append_left _ hmem⟩

/-- What nested dependency resolution must guarantee for the invariant to be
carried through: preservation of `Inv` and legal state extension. -/
def RecSpec (rec : Storage → St → Nat → Except Err (Obj × Storage × St × List Ev)) : Prop :=
  ∀ s st ty o s' st' t, Inv s st → rec s st ty = .ok (o, s', st', t) →
    Inv s' st' ∧ Ext s st s' st'

theorem resolveParams_inv {rec : Storage → St → Nat → Except Err (Obj × Storage × St × List Ev)}
    (hrec : RecSpec rec) :
    ∀ (ds : List Nat) (s : Storage) (st : St) os s' st' t, Inv s st →
      resolveParams rec s st ds = .ok (os, s', st', t) →
      Inv s' st' ∧ Ext s st s' st' := by
  intro ds
  induction ds with
  | nil =>
    intro s st os s' st' t hinv h
    simp only [resolveParams, Except.ok.injEq, Prod.mk.injEq] at h
    obtain ⟨-, hs, hst, -⟩ := h
    subst hs hst
    exact ⟨hinv, extRefl _ _⟩
  | cons d ds ih =>
    intro s st os s' st' t hinv h
    simp only [resolveParams] at h
    split at h
    · exact absurd h (by simp)
    · rename_i res o1 s1 st1 t1 h1
      split at h
      · exact absurd h (by simp)
      · rename_i res2 os2 s2 st2 t2 h2
        simp only [Except.ok.injEq, Prod.mk.injEq] at h
        obtain ⟨-, hs, hst, -⟩ := h
        subst hs hst
        obtain ⟨hinv1, hext1⟩ := hrec s st d o1 s1 st1 t1 hinv h1
        obtain ⟨hinv2, hext2⟩ := ih s1 st1 os2 s2 st2 t2 hinv1 h2
        exact ⟨hinv2, extTrans hext1 hext2⟩

theorem injectG_inv {m : TypeMeta}
    {rec : Storage → St → Nat → Except Err (Obj × Storage × St × List Ev)}
    (hrec : RecSpec rec) (s : Storage) (st : St) (o : Obj)
    (b : Bool) (o' : Obj) (s' : Storage) (st' : St) (t : List Ev)
    (hinv : Inv s st) (h : injectG m rec s st o = .ok (b, o', s', st', t)) :
    Inv s' st' ∧ Ext s st s' st' ∧ o'.cls = o.cls := by
  cases hbp : m.blueprintParams o.cls with
  | none =>
    simp only [injectG, hbp, Except.ok.injEq, Prod.mk.injEq] at h
    obtain ⟨-, ho, hs, hst, -⟩ := h
    subst ho hs hst
    exact ⟨hinv, extRefl _ _, rfl⟩
  | some ds =>
    simp only [injectG, hbp] at h
    split at h
    · exact absurd h (by simp)
    · rename_i res os s1 st1 tP hps
      simp only [Except.ok.injEq, Prod.mk.injEq] at h
      obtain ⟨-, ho, hs, hst, -⟩ := h
      subst ho hs hst
      obtain ⟨hinv1, hext1⟩ := resolveParams_inv hrec ds s st os s1 st1 tP hinv hps
      exact ⟨hinv1, hext1, rfl⟩

theorem resolveImplG_inv {m : TypeMeta}
    {rec : Storage → St → Nat → Except Err (Obj × Storage × St × List Ev)}
    (hrec : RecSpec rec) (s : Storage) (st : St) (r : Resolver)
    (o : Obj) (s' : Storage) (st' : St) (t : List Ev)
    (hinv : Inv s st) (hr : r ∈ allResolvers s)
    (h : resolveImplG m rec s st r = .ok (o, s', st', t)) :
    Inv s' st' ∧ Ext s st s' st' ∧ o.cls = r.effectiveClass := by
  cases hg : (hGet st r.lifetimeRef).get with
  | some x =>
    simp only [resolveImplG, hg, Except.ok.injEq, Prod.mk.injEq] at h
    obtain ⟨ho, hs, hst, -⟩ := h
    subst ho hs hst
    refine ⟨hinv, extRefl _ _, ?_⟩
    obtain ⟨-, -, h3⟩ := hinv
    have hok := h3 r hr
    cases hlt : hGet st r.lifetimeRef with
    | transient => rw [hlt] at hg; simp [LT.get] at hg
    | cached v =>
      rw [hlt] at hg hok
      cases v with
      | none => simp [LT.get] at hg
      | some y =>
        simp only [LT.get, Option.some.injEq] at hg
        subst hg
        simpa [cachedClsOk] using hok
  | none =>
    simp only [resolveImplG, hg] at h
    split at h
    · exact absurd h (by simp)
    · rename_i fac hfac
      split at h
      · exact absurd h (by simp)
      · rename_i res b o1 s2 st2 tInj hinj
        simp only [Except.ok.injEq, Prod.mk.injEq] at h
        obtain ⟨ho, hs, hst, -⟩ := h
        subst ho hs hst
        have hinv1 : Inv s { st with counter := st.counter + 1 } := hinv
        obtain ⟨hinv2, hext2, hcls⟩ := injectG_inv hrec s _ _ b o1 s2 st2 tInj hinv1 hinj
        have hcls1 : o1.cls = r.effectiveClass := hcls
        have hrmem2 : r ∈ allResolvers s2 := mem_allResolvers_of_shapeExt hext2.1 r hr
        obtain ⟨hinv3, hext3⟩ := hSet_inv hinv2 hrmem2 hcls1
        have hext2' : Ext s st s2 st2 := hext2
        exact ⟨hinv3, extTrans hext2' hext3, hcls1⟩

theorem resolveFuel_recSpec (m : TypeMeta) : ∀ fuel, RecSpec (resolveFuel m fuel) := by
  intro fuel
  induction fuel with
  | zero =>
    intro s st ty o s' st' t hinv h
    simp [resolveFuel] at h
  | succ fuel ih =>
    intro s st ty o s' st' t hinv h
    simp only [resolveFuel] at h
    split at h
    · exact absurd h (by simp)
    · rename_i res r s1 st1 hget
      obtain ⟨hinv1, hext1, hmem1⟩ := getResolver_inv m s st ty r s1 st1 hinv hget
      obtain ⟨hinv2, hext2, -⟩ := resolveImplG_inv ih s1 st1 r o s' st' t hinv1 hmem1 h
      exact ⟨hinv2, extTrans hext1 hext2⟩

theorem resolveResolvers_spec {m : TypeMeta}
    {rec : Storage → St → Nat → Except Err (Obj × Storage × St × List Ev)}
    (hrec : RecSpec rec) :
    ∀ (rs : List Resolver) (s : Storage) (st : St) os s' st' t, Inv s st →
      (∀ r ∈ rs, r ∈ allResolvers s) →
      resolveResolvers m rec s st rs = .ok (os, s', st', t) →
      Inv s' st' ∧ Ext s st s' st' ∧
      os.map (fun o => o.cls) = rs.map (fun r => r.effectiveClass) := by
  intro rs
  induction rs with
  | nil =>
    intro s st os s' st' t hinv _ h
    simp only [resolveResolvers, Except.ok.injEq, Prod.mk.injEq] at h
    obtain ⟨hos, hs, hst, -⟩ := h
    subst hos hs hst
    exact ⟨hinv, extRefl _ _, rfl⟩
  | cons r rest ih =>
    intro s st os s' st' t hinv hmem h
    simp only [resolveResolvers] at h
    split at h
    · exact absurd h (by simp)
    · rename_i res o1 s1 st1 t1 h1
      split at h
      · exact absurd h (by simp)
      · rename_i res2 os2 s2 st2 t2 h2
        simp only [Except.ok.injEq, Prod.mk.injEq] at h
        obtain ⟨hos, hs, hst, -⟩ := h
        subst hos hs hst
        obtain ⟨hinv1, hext1, hcls1⟩ := resolveImplG_inv hrec s st r o1 s1 st1 t1 hinv
          (hmem r (List.mem_cons_self r rest)) h1
        obtain ⟨hinv2, hext2, hcls2⟩ := ih s1 st1 os2 s2 st2 t2 hinv1
          (fun r' hr' =>
            mem_allResolvers_of_shapeExt hext1.1 r' (hmem r' (List.mem_cons_of_mem _ hr'))) h2
        refine ⟨hinv2, extTrans hext1 hext2, ?_⟩
        simp only [List.map_cons, hcls1, hcls2]

theorem appendObjectsCollection_spec {m : TypeMeta}
    {rec : Storage → St → Nat → Except Err (Obj × Storage × St × List Ev)}
    (hrec : RecSpec rec) :
    ∀ (s : Storage) (st : St) (ty : Nat) os s' st' t, Inv s st →
      appendObjectsCollection m rec s st ty = .ok (os, s', st', t) →
      Inv s' st' ∧ Ext s st s' st' ∧
      os.map (fun o => o.cls) = (chainResolvers s ty).map (fun r => r.effectiveClass) := by
  intro s
  induction s with
  | root regs f =>
    intro st ty os s' st' t hinv h
    simp only [appendObjectsCollection] at h
    have hm : ∀ r ∈ (lookupRegs regs ty).getD [], r ∈ allResolvers (.root regs f) := by
      cases hlk : lookupRegs regs ty with
      | none => simp
      | some rs =>
        intro r hr
        rw [allResolvers_root]
        exact mem_regsResolvers_of_lookup hlk r (by simpa using hr)
    obtain ⟨hinv', hext', hmap⟩ := resolveResolvers_spec hrec _ _ _ os s' st' t hinv hm h
    exact ⟨hinv', hext', by rw [hmap]; rfl⟩
  | child regs f p ih =>
    intro st ty os s' st' t hinv h
    simp only [appendObjectsCollection] at h
    split at h
    · exact absurd h (by simp)
    · rename_i res os1 p1 st1 t1 h1
      split at h
      · exact absurd h (by simp)
      · rename_i res2 os2 s2 st2 t2 h2
        simp only [Except.ok.injEq, Prod.mk.injEq] at h
        obtain ⟨hos, hs, hst, -⟩ := h
        subst hos hs hst
        obtain ⟨hinvp1, hextp1, hmap1⟩ := ih st ty os1 p1 st1 t1 (inv_child_proj hinv) h1
        obtain ⟨hinvc, hextc⟩ := inv_child_restore regs f hinv hinvp1 hextp1
        have hm : ∀ r ∈ (lookupRegs regs ty).getD [], r ∈ allResolvers (.child regs f p1) := by
          cases hlk : lookupRegs regs ty with
          | none => simp
          | some rs =>
            intro r hr
            rw [allResolvers_child]
            exact List.mem_append_right _
              (mem_regsResolvers_of_lookup hlk r (by simpa using hr))
        obtain ⟨hinv2, hext2, hmap2⟩ := resolveResolvers_spec hrec _ _ _ os2 s2 st2 t2 hinvc hm h2
        refine ⟨hinv2, extTrans hextc hext2, ?_⟩
        simp only [chainResolvers, List.map_append, hmap1, hmap2]

theorem totalResolvers_eq_length (s : Storage) (ty : Nat) :
    totalResolvers s ty = (chainResolvers s ty).length := by
  induction s with
  | root regs f => rfl
  | child regs f p ih =>
    simp only [totalResolvers, chainResolvers, List.length_append, ih]
    exact Nat.add_comm _ _

/-! ## C3: collect-all count and ordering -/

/-- C3: on success `ResolveAll` returns exactly one instance per binding in
the whole ancestor chain — its length equals the precomputed chain-wide
binding count — ordered outermost ancestor first, innermost descendant
last, and within each scope's contribution in registration order, not
reversed: position by position the instance classes are the effective
classes of the chain's bindings in exactly that order. -/
theorem c3_resolveall_count_and_order
    (m : TypeMeta) (fuel : Nat) (s : Storage) (st : St) (ty : Nat)
    (os : List Obj) (s' : Storage) (st' : St) (t : List Ev)
    (hinv : Inv s st)
    (h : resolveAllFuel m fuel s st ty = .ok (os, s', st', t)) :
    os.length = totalResolvers s ty ∧
    os.map (fun o => o.cls) = (chainResolvers s ty).map (fun r => r.effectiveClass) := by
  by_cases h0 : totalResolvers s ty = 0
  · rw [resolveAllFuel, if_pos h0] at h
    exact absurd h (by simp)
  · rw [resolveAllFuel, if_neg h0] at h
    obtain ⟨-, -, hmap⟩ :=
      appendObjectsCollection_spec (resolveFuel_recSpec m fuel) s st ty os s' st' t hinv h
    refine ⟨?_, hmap⟩
    have hlen := congrArg List.length hmap
    simp only [List.length_map] at hlen
    rw [hlen, totalResolvers_eq_length]

def mC3 : TypeMeta := ⟨fun _ => false, fun _ => false, fun _ => none⟩

def sRootC3 : Storage := .root [(50, [⟨60, 0⟩])] []

def sChildC3 : Storage := .child [(50, [⟨61, 1⟩, ⟨62, 2⟩])] [] sRootC3

def stC3 : St := ⟨0, [LT.transient, LT.transient, LT.transient]⟩

theorem c3_witness :
    ([⟨0, 60, 0, []⟩, ⟨1, 61, 0, []⟩, ⟨2, 62, 0, []⟩] : List Obj).length =
      totalResolvers sChildC3 50 ∧
    ([⟨0, 60, 0, []⟩, ⟨1, 61, 0, []⟩, ⟨2, 62, 0, []⟩] : List Obj).map (fun o => o.cls) =
      (chainResolvers sChildC3 50).map (fun r => r.effectiveClass) :=
  c3_resolveall_count_and_order mC3 1 sChildC3 stC3 50 _ _ _ _
    ⟨by decide, by decide, by decide⟩ rfl

end UnrealDI
